import Mathlib

/-!
Shallow embedding of `testbeam_analysis/hit_analysis.py` (noisy-pixel masking,
noisy-pixel removal and hit clustering for one DUT) together with models of the
collaborators it uses: the event-aligned chunked table reader
(`analysis_utils.data_aligned_at_events`), the occupancy histogrammer
(`analysis_utils.hist_2d_index`) and the `pixel_clusterizer.HitClusterizer`.
The collaborator code is not part of the sources; those definitions are
modelled from the specification and are marked as such in their doc comments.
-/

namespace Testbeam

/-- Data model: one pixel hit of a DUT stream.  `column` and `row` are 1-based
pixel indices, `event_number` is a signed 64-bit counter (modelled as `Int`),
`charge` and `frame` are nonnegative (modelled as `Nat`). -/
structure Hit where
  event_number : Int
  column : Nat
  row : Nat
  charge : Nat
  frame : Nat
deriving DecidableEq, Repr

instance : Inhabited Hit := ⟨⟨0, 0, 0, 0, 0⟩⟩

/-- `np.all(np.diff(xs) >= 0)`: every adjacent pair of the list is
non-decreasing.  Used by `cluster_hits` for the per-chunk monotonicity check. -/
def nonDecreasing : List Int → Bool
  | [] => true
  | [_] => true
  | a :: b :: t => decide (a ≤ b) && nonDecreasing (b :: t)

/-- Modelled from the spec: `analysis_utils.data_aligned_at_events` reads the
hit table in chunks of bounded size, extending each chunk forward until the
current `event_number` is fully consumed, so that a chunk boundary never splits
an event.  Fuel-indexed worker; the wrapper instantiates the fuel with the
stream length. -/
def dataAlignedChunksAux (csize : Nat) : Nat → List Hit → List (List Hit)
  | 0, _ => []
  | _, [] => []
  | fuel + 1, h :: t =>
    let n := max 1 csize
    let taken := (h :: t).take n
    let e := taken.getLast?.map Hit.event_number
    let ext := ((h :: t).drop n).takeWhile (fun x => some x.event_number = e)
    let rest := ((h :: t).drop n).dropWhile (fun x => some x.event_number = e)
    (taken ++ ext) :: dataAlignedChunksAux csize fuel rest

/-- Modelled from the spec: the chunk decomposition of a hit stream produced by
the event-aligned reader for a given chunk size. -/
def dataAlignedChunks (csize : Nat) (l : List Hit) : List (List Hit) :=
  dataAlignedChunksAux csize l.length l

end Testbeam

namespace Testbeam

theorem length_dropWhile_le {α : Type} (p : α → Bool) (l : List α) :
    (l.dropWhile p).length ≤ l.length := by
  induction l with
  | nil => simp [List.dropWhile]
  | cons a t ih =>
    by_cases h : p a
    · simp [List.dropWhile, h]
      exact Nat.le_trans ih (Nat.le_succ _)
    · simp [List.dropWhile, h]

theorem mem_of_mem_dropWhile {α : Type} (p : α → Bool) {l : List α} {x : α}
    (h : x ∈ l.dropWhile p) : x ∈ l := by
  induction l with
  | nil => simp [List.dropWhile] at h
  | cons a t ih =>
    by_cases hp : p a
    · simp [List.dropWhile, hp] at h
      exact List.mem_cons_of_mem _ (ih h)
    · simpa [List.dropWhile, hp] using h

theorem mem_of_mem_takeWhile {α : Type} (p : α → Bool) {l : List α} {x : α}
    (h : x ∈ l.takeWhile p) : x ∈ l := by
  induction l with
  | nil => simp [List.takeWhile] at h
  | cons a t ih =>
    by_cases hp : p a
    · simp [List.takeWhile, hp] at h
      rcases h with h | h
      · exact h ▸ List.mem_cons_self _ _
      · exact List.mem_cons_of_mem _ (ih h)
    · simp [List.takeWhile, hp] at h

theorem pred_of_mem_takeWhile {α : Type} (p : α → Bool) {l : List α} {x : α}
    (h : x ∈ l.takeWhile p) : p x = true := by
  induction l with
  | nil => simp [List.takeWhile] at h
  | cons a t ih =>
    by_cases hp : p a
    · simp [List.takeWhile, hp] at h
      rcases h with h | h
      · exact h ▸ hp
      · exact ih h
    · simp [List.takeWhile, hp] at h

theorem head_dropWhile_false {α : Type} (p : α → Bool) (l : List α) {x : α}
    {t : List α} (h : l.dropWhile p = x :: t) : p x = false := by
  induction l with
  | nil => simp [List.dropWhile] at h
  | cons a s ih =>
    by_cases hp : p a
    · simp [List.dropWhile, hp] at h
      exact ih h
    · simp [List.dropWhile, hp] at h
      rcases h with ⟨h1, _⟩
      simpa [← h1] using hp

theorem nonDecreasing_cons {a : Int} {t : List Int} :
    nonDecreasing (a :: t) = true ↔
      nonDecreasing t = true ∧ ∀ b ∈ t.head?, a ≤ b := by
  cases t with
  | nil => simp [nonDecreasing]
  | cons b s =>
    simp only [nonDecreasing, Bool.and_eq_true, decide_eq_true_eq, List.head?]
    constructor
    · rintro ⟨h1, h2⟩
      refine ⟨h2, ?_⟩
      intro x hx
      have hxb : b = x := by simpa [Option.mem_def] using hx
      exact hxb ▸ h1
    · rintro ⟨h1, h2⟩
      exact ⟨h2 b rfl, h1⟩

theorem nonDecreasing_append_left {A B : List Int}
    (h : nonDecreasing (A ++ B) = true) : nonDecreasing A = true := by
  induction A with
  | nil => simp [nonDecreasing]
  | cons a t ih =>
    rw [List.cons_append, nonDecreasing_cons] at h
    rw [nonDecreasing_cons]
    refine ⟨ih h.1, ?_⟩
    intro b hb
    apply h.2
    cases t with
    | nil => simp [List.head?] at hb
    | cons c s => simpa [List.head?] using hb

theorem nonDecreasing_append_right {A B : List Int}
    (h : nonDecreasing (A ++ B) = true) : nonDecreasing B = true := by
  induction A with
  | nil => simpa using h
  | cons a t ih =>
    rw [List.cons_append, nonDecreasing_cons] at h
    exact ih h.1

theorem nonDecreasing_head_le {a : Int} {t : List Int}
    (h : nonDecreasing (a :: t) = true) : ∀ b ∈ t, a ≤ b := by
  induction t generalizing a with
  | nil => simp
  | cons b s ih =>
    rw [nonDecreasing_cons] at h
    intro c hc
    rcases List.mem_cons.mp hc with rfl | hc
    · exact h.2 c (by simp [List.head?])
    · exact le_trans (h.2 b (by simp [List.head?])) (ih h.1 c hc)

theorem nonDecreasing_of_forall_eq {e : Int} {l : List Int}
    (h : ∀ x ∈ l, x = e) : nonDecreasing l = true := by
  induction l with
  | nil => rfl
  | cons a t ih =>
    rw [nonDecreasing_cons]
    refine ⟨ih fun x hx => h x (List.mem_cons_of_mem _ hx), ?_⟩
    intro b hb
    have ha := h a (List.mem_cons_self _ _)
    have hbe : b = e := by
      cases t with
      | nil => simp [List.head?] at hb
      | cons c s =>
        simp [List.head?, Option.mem_def] at hb
        exact hb ▸ h c (by simp)
    simp [ha, hbe]

theorem dataAlignedChunksAux_nil (csize : Nat) (f : Nat) :
    dataAlignedChunksAux csize f [] = [] := by
  cases f <;> rfl

theorem dataAlignedChunks_rest_length (csize : Nat) (h : Hit) (t : List Hit)
    (p : Hit → Bool) :
    ((((h :: t).drop (max 1 csize)).dropWhile p)).length ≤ t.length := by
  have hn : 1 ≤ max 1 csize := le_max_left 1 csize
  have h1 : (((h :: t).drop (max 1 csize))).length = t.length + 1 - max 1 csize := by
    simp [List.length_drop]
  have h2 := length_dropWhile_le p ((h :: t).drop (max 1 csize))
  omega

theorem dataAlignedChunksAux_fuel (csize : Nat) :
    ∀ f1 f2 (l : List Hit), l.length ≤ f1 → l.length ≤ f2 →
      dataAlignedChunksAux csize f1 l = dataAlignedChunksAux csize f2 l := by
  intro f1
  induction f1 with
  | zero =>
    intro f2 l h1 _
    have : l = [] := List.length_eq_zero.mp (Nat.le_zero.mp h1)
    subst this
    simp [dataAlignedChunksAux_nil]
  | succ f ih =>
    intro f2 l h1 h2
    cases l with
    | nil => simp [dataAlignedChunksAux_nil]
    | cons h t =>
      cases f2 with
      | zero => simp at h2
      | succ g =>
        simp only [dataAlignedChunksAux]
        have hrest := dataAlignedChunks_rest_length csize h t
          (fun x => some x.event_number =
            (((h :: t).take (max 1 csize)).getLast?.map Hit.event_number))
        have hlen : t.length ≤ f := by simpa using h1
        have hlen2 : t.length ≤ g := by simpa using h2
        rw [ih g _ (le_trans hrest hlen) (le_trans hrest hlen2)]

theorem dataAlignedChunks_cons (csize : Nat) (h : Hit) (t : List Hit) :
    ∃ chunk rest,
      dataAlignedChunks csize (h :: t) = chunk :: dataAlignedChunks csize rest ∧
      chunk ++ rest = h :: t ∧
      chunk ≠ [] ∧
      rest.length ≤ t.length ∧
      (∀ x ∈ rest.head?,
        chunk.getLast?.map Hit.event_number ≠ some x.event_number) := by
  set n := max 1 csize with hn
  set taken := (h :: t).take n with htaken
  set e := taken.getLast?.map Hit.event_number with he
  set p : Hit → Bool := fun x => some x.event_number = e with hp
  set ext := ((h :: t).drop n).takeWhile p with hext
  set rest := ((h :: t).drop n).dropWhile p with hrest
  refine ⟨taken ++ ext, rest, ?_, ?_, ?_, ?_, ?_⟩
  · show dataAlignedChunksAux csize (h :: t).length (h :: t) = _
    have hr := dataAlignedChunks_rest_length csize h t p
    have : dataAlignedChunksAux csize (h :: t).length (h :: t) =
        (taken ++ ext) :: dataAlignedChunksAux csize t.length rest := by
      simp only [List.length_cons, dataAlignedChunksAux]
    rw [this]
    rw [dataAlignedChunksAux_fuel csize t.length rest.length rest hr le_rfl]
    rfl
  · rw [List.append_assoc, hext, hrest, List.takeWhile_append_dropWhile,
      htaken, List.take_append_drop]
  · have : taken ≠ [] := by
      rw [htaken]
      simp [hn]
    intro hcontra
    exact this (List.append_eq_nil.mp hcontra).1
  · exact dataAlignedChunks_rest_length csize h t p
  · intro x hx
    have htne : taken ≠ [] := by
      rw [htaken]
      simp [hn]
    -- the last element of the chunk still carries the event number e
    have hlast : (taken ++ ext).getLast?.map Hit.event_number = e := by
      by_cases hne : ext = []
      · rw [hne, List.append_nil]
      · rw [List.getLast?_append_of_ne_nil _ hne]
        have hsome : ext.getLast? = some (ext.getLast hne) :=
          List.getLast?_eq_getLast_of_ne_nil hne
        have hmem : ext.getLast hne ∈ ext := List.getLast_mem hne
        have hmem' : ext.getLast hne ∈ ((h :: t).drop n).takeWhile p := by
          rw [← hext]
          exact hmem
        have hpred : p (ext.getLast hne) = true :=
          pred_of_mem_takeWhile p hmem'
        rw [hsome]
        simpa [hp, Option.map] using hpred
    -- the head of the rest fails the predicate, so its event number differs
    have hxhead : rest.head? = some x := hx
    have hfalse : p x = false := by
      rcases hrest' : rest with _ | ⟨z, zs⟩
      · rw [hrest'] at hxhead
        simp at hxhead
      · rw [hrest'] at hxhead
        simp at hxhead
        subst hxhead
        exact head_dropWhile_false p _ (hrest ▸ hrest')
    rw [hlast]
    intro hcon
    rw [hp] at hfalse
    simp only [decide_eq_false_iff_not] at hfalse
    exact hfalse hcon.symm

theorem nonDecreasing_append {A B : List Int}
    (hA : nonDecreasing A = true) (hB : nonDecreasing B = true)
    (hAB : ∀ a ∈ A, ∀ b ∈ B, a ≤ b) : nonDecreasing (A ++ B) = true := by
  induction A with
  | nil => simpa using hB
  | cons a t ih =>
    rw [nonDecreasing_cons] at hA
    rw [List.cons_append, nonDecreasing_cons]
    refine ⟨ih hA.1 fun x hx => hAB x (List.mem_cons_of_mem _ hx), ?_⟩
    intro b hb
    cases t with
    | nil =>
      cases B with
      | nil => simp [List.head?] at hb
      | cons c s =>
        simp [List.head?, Option.mem_def] at hb
        exact hb ▸ hAB a (by simp) c (by simp)
    | cons c s =>
      simp [List.head?, Option.mem_def] at hb
      exact hb ▸ hA.2 c (by simp [List.head?])

/-- Parameters of `cluster_hits` that reach the clusterizer: charge bounds,
spatial/temporal cluster distances and the 1-based pixel coordinate lists
extracted from the optional disabled/noisy pixel mask files
(`np.dstack(np.nonzero(mask))[0] + 1`). -/
structure ClusterParams where
  min_hit_charge : Nat
  max_hit_charge : Option Nat
  column_cluster_distance : Nat
  row_cluster_distance : Nat
  frame_cluster_distance : Nat
  disabled_pixels : List (Nat × Nat)
  noisy_pixels : List (Nat × Nat)
deriving DecidableEq, Repr

/-- One row of the output `Cluster` table
(`event_number, ID, n_hits, charge, seed_column, seed_row, mean_column,
mean_row`); the floating-point fields are modelled as exact rationals. -/
structure Cluster where
  event_number : Int
  ID : Nat
  n_hits : Nat
  charge : Nat
  seed_column : Nat
  seed_row : Nat
  mean_column : ℚ
  mean_row : ℚ
deriving DecidableEq, Repr

/-- Modelled from the spec: a hit survives the clusterizer's pre-filter when
its charge lies within `[min_hit_charge, max_hit_charge]` (no upper bound when
`max_hit_charge` is `None`) and its pixel is in neither pixel mask. -/
def hitSurvives (p : ClusterParams) (h : Hit) : Bool :=
  decide (p.min_hit_charge ≤ h.charge) &&
    (match p.max_hit_charge with
     | none => true
     | some m => decide (h.charge ≤ m)) &&
    !(p.disabled_pixels.contains (h.column, h.row)) &&
    !(p.noisy_pixels.contains (h.column, h.row))

/-- Modelled from the spec: two hits are adjacent when their column distance,
row distance and frame distance are within the configured cluster distances. -/
def adjacentHits (p : ClusterParams) (a b : Hit) : Bool :=
  decide ((((a.column : Int) - b.column).natAbs ≤ p.column_cluster_distance)) &&
    decide ((((a.row : Int) - b.row).natAbs ≤ p.row_cluster_distance)) &&
    decide ((((a.frame : Int) - b.frame).natAbs ≤ p.frame_cluster_distance))

/-- One step of the incremental connected-components construction: the new hit
is merged with every existing component it touches. -/
def addToComponents (p : ClusterParams) (comps : List (List Hit)) (h : Hit) :
    List (List Hit) :=
  let touching := comps.filter (fun comp => comp.any (adjacentHits p h))
  let untouched := comps.filter (fun comp => !comp.any (adjacentHits p h))
  (h :: touching.flatten) :: untouched

/-- Modelled from the spec: the connected components of the event's surviving
hits under transitive adjacency (`merging is transitive, not pairwise-only`). -/
def components (p : ClusterParams) (hits : List Hit) : List (List Hit) :=
  hits.foldl (addToComponents p) []

/-- Modelled from the spec: the cluster record of one connected component —
hit count, summed charge, highest-charge seed and charge-weighted centroid
(arithmetic mean when the total charge is zero). -/
def mkCluster (e : Int) (idx : Nat) (comp : List Hit) : Cluster :=
  let n := comp.length
  let q := (comp.map Hit.charge).sum
  let seed := comp.foldl (fun best h => if best.charge < h.charge then h else best)
    (comp.headD default)
  { event_number := e
    ID := idx
    n_hits := n
    charge := q
    seed_column := seed.column
    seed_row := seed.row
    mean_column :=
      if q = 0 then ((comp.map (fun h => (h.column : ℚ))).sum) / n
      else ((comp.map (fun h => (h.charge : ℚ) * h.column)).sum) / q
    mean_row :=
      if q = 0 then ((comp.map (fun h => (h.row : ℚ))).sum) / n
      else ((comp.map (fun h => (h.charge : ℚ) * h.row)).sum) / q }

/-- Modelled from the spec: all clusters of one event — connected components
of the surviving hits, enumerated with per-event cluster IDs and stamped with
the event's `event_number`. -/
def clusterEvent (p : ClusterParams) (e : Int) (run : List Hit) : List Cluster :=
  ((components p (run.filter (hitSurvives p))).enum).map
    (fun ic => mkCluster e ic.1 ic.2)

/-- Modelled from the spec: `HitClusterizer.cluster_hits` on one chunk —
process the hits grouped by consecutive equal `event_number`, never mixing
hits of different events into one cluster.  Fuel-indexed worker. -/
def clusterStreamAux (p : ClusterParams) : Nat → List Hit → List Cluster
  | 0, _ => []
  | _, [] => []
  | fuel + 1, h :: t =>
    let run := (h :: t).takeWhile (fun x => x.event_number = h.event_number)
    let rest := (h :: t).dropWhile (fun x => x.event_number = h.event_number)
    clusterEvent p h.event_number run ++ clusterStreamAux p fuel rest

/-- Modelled from the spec: the cluster stream the clusterizer produces for a
hit list. -/
def clusterStreamFull (p : ClusterParams) (l : List Hit) : List Cluster :=
  clusterStreamAux p l.length l

/-- The chunk loop of `cluster_hits` (lines 206-212): for every chunk, raise
when the chunk's hit event numbers are not non-decreasing, cluster the chunk,
raise when the chunk's cluster event numbers are not non-decreasing, and
otherwise append the chunk's clusters to the output table.  The result is the
content of the output `Cluster` table when the loop stops (everything appended
before a raise stays written) together with the error flag. -/
def processChunks (p : ClusterParams) : List (List Hit) → List Cluster × Bool
  | [] => ([], false)
  | c :: cs =>
    if nonDecreasing (c.map Hit.event_number) = false then ([], true)
    else
      let out := clusterStreamFull p c
      if nonDecreasing (out.map Cluster.event_number) = false then ([], true)
      else
        let r := processChunks p cs
        (out ++ r.1, r.2)

/-- `cluster_hits` (lines 165-217): stream the hit table through the
event-aligned reader and run the chunk loop.  First component: the rows of the
output cluster file; second component: whether the `RuntimeError` was
raised. -/
def cluster_hits (p : ClusterParams) (csize : Nat) (hits : List Hit) :
    List Cluster × Bool :=
  processChunks p (dataAlignedChunks csize hits)

theorem clusterStreamAux_nil (p : ClusterParams) (f : Nat) :
    clusterStreamAux p f [] = [] := by
  cases f <;> rfl

theorem clusterStream_rest_length (h : Hit) (t : List Hit) :
    (((h :: t).dropWhile (fun x => x.event_number = h.event_number))).length ≤
      t.length := by
  have : ((h :: t).dropWhile (fun x => x.event_number = h.event_number)) =
      t.dropWhile (fun x => x.event_number = h.event_number) := by
    simp [List.dropWhile]
  rw [this]
  exact length_dropWhile_le _ _

theorem clusterStreamAux_fuel (p : ClusterParams) :
    ∀ f1 f2 (l : List Hit), l.length ≤ f1 → l.length ≤ f2 →
      clusterStreamAux p f1 l = clusterStreamAux p f2 l := by
  intro f1
  induction f1 with
  | zero =>
    intro f2 l h1 _
    have : l = [] := List.length_eq_zero.mp (Nat.le_zero.mp h1)
    subst this
    simp [clusterStreamAux_nil]
  | succ f ih =>
    intro f2 l h1 h2
    cases l with
    | nil => simp [clusterStreamAux_nil]
    | cons h t =>
      cases f2 with
      | zero => simp at h2
      | succ g =>
        simp only [clusterStreamAux]
        have hrest := clusterStream_rest_length h t
        have hlen : t.length ≤ f := by simpa using h1
        have hlen2 : t.length ≤ g := by simpa using h2
        rw [ih g _ (le_trans hrest hlen) (le_trans hrest hlen2)]

theorem clusterStreamFull_cons (p : ClusterParams) (h : Hit) (t : List Hit) :
    clusterStreamFull p (h :: t) =
      clusterEvent p h.event_number
          ((h :: t).takeWhile (fun x => x.event_number = h.event_number)) ++
        clusterStreamFull p
          ((h :: t).dropWhile (fun x => x.event_number = h.event_number)) := by
  show clusterStreamAux p (t.length + 1) (h :: t) = _
  simp only [clusterStreamAux]
  rw [clusterStreamAux_fuel p t.length
    (((h :: t).dropWhile (fun x => x.event_number = h.event_number))).length _
    (clusterStream_rest_length h t) le_rfl]
  rfl

theorem clusterEvent_event {p : ClusterParams} {e : Int} {run : List Hit}
    {cl : Cluster} (h : cl ∈ clusterEvent p e run) : cl.event_number = e := by
  simp only [clusterEvent, List.mem_map] at h
  rcases h with ⟨ic, _, rfl⟩
  rfl

theorem addToComponents_ne_nil (p : ClusterParams) (comps : List (List Hit))
    (h : Hit) : addToComponents p comps h ≠ [] := by
  simp [addToComponents]

theorem foldl_addToComponents_ne_nil (p : ClusterParams) :
    ∀ (xs : List Hit) (acc : List (List Hit)), acc ≠ [] →
      xs.foldl (addToComponents p) acc ≠ [] := by
  intro xs
  induction xs with
  | nil => intro acc h; simpa using h
  | cons x t ih =>
    intro acc _
    exact ih (addToComponents p acc x) (addToComponents_ne_nil p acc x)

theorem components_ne_nil (p : ClusterParams) {hits : List Hit}
    (h : hits ≠ []) : components p hits ≠ [] := by
  cases hits with
  | nil => exact absurd rfl h
  | cons x t =>
    show (x :: t).foldl (addToComponents p) [] ≠ []
    rw [List.foldl_cons]
    exact foldl_addToComponents_ne_nil p t _ (addToComponents_ne_nil p [] x)

theorem clusterEvent_ne_nil {p : ClusterParams} {e : Int} {run : List Hit}
    (h : run.filter (hitSurvives p) ≠ []) : clusterEvent p e run ≠ [] := by
  have hc := components_ne_nil p h
  simp only [clusterEvent, ne_eq, List.map_eq_nil_iff, List.enum_eq_nil]
  exact hc

theorem takeWhile_append_all {α : Type} (p : α → Bool) {A : List α}
    (B : List α) (h : ∀ x ∈ A, p x = true) :
    (A ++ B).takeWhile p = A ++ B.takeWhile p := by
  induction A with
  | nil => rfl
  | cons a t ih =>
    rw [List.cons_append, List.takeWhile_cons, if_pos (h a (by simp)),
      ih fun x hx => h x (List.mem_cons_of_mem _ hx), List.cons_append]

theorem dropWhile_append_all {α : Type} (p : α → Bool) {A : List α}
    (B : List α) (h : ∀ x ∈ A, p x = true) :
    (A ++ B).dropWhile p = B.dropWhile p := by
  induction A with
  | nil => rfl
  | cons a t ih =>
    rw [List.cons_append, List.dropWhile_cons, if_pos (h a (by simp))]
    exact ih fun x hx => h x (List.mem_cons_of_mem _ hx)

theorem takeWhile_eq_self_of_dropWhile_nil {α : Type} (p : α → Bool)
    {l : List α} (h : l.dropWhile p = []) : l.takeWhile p = l := by
  have := List.takeWhile_append_dropWhile (p := p) (l := l)
  rw [h, List.append_nil] at this
  exact this

/-- Every cluster of the stream carries the event number of one of the hits. -/
theorem clusterStream_event_mem_aux (p : ClusterParams) :
    ∀ (n : Nat) (l : List Hit), l.length ≤ n →
      ∀ cl ∈ clusterStreamFull p l, ∃ h ∈ l,
        cl.event_number = h.event_number := by
  intro n
  induction n with
  | zero =>
    intro l hl cl hcl
    have : l = [] := List.length_eq_zero.mp (Nat.le_zero.mp hl)
    subst this
    simp [clusterStreamFull, clusterStreamAux] at hcl
  | succ n ih =>
    intro l hl cl hcl
    cases l with
    | nil => simp [clusterStreamFull, clusterStreamAux] at hcl
    | cons h t =>
      rw [clusterStreamFull_cons] at hcl
      rcases List.mem_append.mp hcl with hcl | hcl
      · exact ⟨h, by simp, clusterEvent_event hcl⟩
      · have hr := clusterStream_rest_length h t
        have hlen : t.length ≤ n := by simpa using hl
        rcases ih _ (le_trans hr hlen) cl hcl with ⟨h', hh', he⟩
        exact ⟨h', mem_of_mem_dropWhile _ hh', he⟩

/-- Monotone hit streams give monotone cluster streams. -/
theorem clusterStream_monotone_aux (p : ClusterParams) :
    ∀ (n : Nat) (l : List Hit), l.length ≤ n →
      nonDecreasing (l.map Hit.event_number) = true →
      nonDecreasing ((clusterStreamFull p l).map Cluster.event_number) =
        true := by
  intro n
  induction n with
  | zero =>
    intro l hl _
    have : l = [] := List.length_eq_zero.mp (Nat.le_zero.mp hl)
    subst this
    rfl
  | succ n ih =>
    intro l hl hmono
    cases l with
    | nil => rfl
    | cons h t =>
      rw [clusterStreamFull_cons, List.map_append]
      set run := (h :: t).takeWhile (fun x => x.event_number = h.event_number)
        with hrun
      set rest := (h :: t).dropWhile (fun x => x.event_number = h.event_number)
        with hrest
      have hsplit : run ++ rest = h :: t := List.takeWhile_append_dropWhile _ _
      have hmap : run.map Hit.event_number ++ rest.map Hit.event_number =
          (h :: t).map Hit.event_number := by
        rw [← List.map_append, hsplit]
      have hrestmono : nonDecreasing (rest.map Hit.event_number) = true := by
        apply nonDecreasing_append_right (A := run.map Hit.event_number)
        rw [hmap]
        exact hmono
      have hr := clusterStream_rest_length h t
      have hlen : t.length ≤ n := by simpa using hl
      apply nonDecreasing_append
      · apply nonDecreasing_of_forall_eq (e := h.event_number)
        intro x hx
        rcases List.mem_map.mp hx with ⟨cl, hcl, rfl⟩
        exact clusterEvent_event hcl
      · exact ih _ (le_trans hr hlen) hrestmono
      · intro a ha b hb
        rcases List.mem_map.mp ha with ⟨cl, hcl, rfl⟩
        rcases List.mem_map.mp hb with ⟨cl', hcl', rfl⟩
        rw [clusterEvent_event hcl]
        rcases clusterStream_event_mem_aux p _ _ (le_refl rest.length) cl'
          hcl' with ⟨h', hh', he⟩
        rw [he]
        have hmem : h' ∈ h :: t := mem_of_mem_dropWhile _ (hrest ▸ hh')
        rcases List.mem_cons.mp hmem with rfl | hmem
        · exact le_refl _
        · exact nonDecreasing_head_le (by simpa using hmono) _
            (List.mem_map_of_mem Hit.event_number hmem)

theorem takeWhile_cons_false {α : Type} (p : α → Bool) {x : α} (s : List α)
    (h : p x = false) : (x :: s).takeWhile p = [] := by
  rw [List.takeWhile_cons, if_neg (by simp [h])]

theorem dropWhile_cons_false {α : Type} (p : α → Bool) {x : α} (s : List α)
    (h : p x = false) : (x :: s).dropWhile p = x :: s := by
  rw [List.dropWhile_cons, if_neg (by simp [h])]

/-- Clustering a concatenation splits at an event boundary: when the last
event number of `A` differs from the first event number of `B`, the
clusterizer never merges across the boundary. -/
theorem clusterStream_append_aux (p : ClusterParams) :
    ∀ (n : Nat) (A : List Hit), A.length ≤ n → ∀ (B : List Hit), A ≠ [] →
      (∀ x ∈ B.head?, A.getLast?.map Hit.event_number ≠ some x.event_number) →
      clusterStreamFull p (A ++ B) =
        clusterStreamFull p A ++ clusterStreamFull p B := by
  intro n
  induction n with
  | zero =>
    intro A hA B hAne _
    have : A = [] := List.length_eq_zero.mp (Nat.le_zero.mp hA)
    exact absurd this hAne
  | succ n ih =>
    intro A hA B hAne hbound
    cases hB : B with
    | nil =>
      have hnil : clusterStreamFull p ([] : List Hit) = [] := rfl
      rw [List.append_nil, hnil, List.append_nil]
    | cons b bs =>
      cases A with
      | nil => exact absurd rfl hAne
      | cons a t =>
        rw [← hB]
        set pred : Hit → Bool := fun x =>
          decide (x.event_number = a.event_number) with hpred
        set runA := (a :: t).takeWhile pred with hrunA
        set restA := (a :: t).dropWhile pred with hrestA
        have hsplitA : runA ++ restA = a :: t :=
          List.takeWhile_append_dropWhile _ _
        have hallrun : ∀ x ∈ runA, pred x = true := fun x hx =>
          pred_of_mem_takeWhile pred (hrunA ▸ hx)
        have hconsAB : (a :: t) ++ B = a :: (t ++ B) := rfl
        have hunfoldAB : clusterStreamFull p ((a :: t) ++ B) =
            clusterEvent p a.event_number (((a :: t) ++ B).takeWhile pred) ++
              clusterStreamFull p (((a :: t) ++ B).dropWhile pred) := by
          rw [hconsAB]
          exact clusterStreamFull_cons p a (t ++ B)
        have hunfoldA : clusterStreamFull p (a :: t) =
            clusterEvent p a.event_number runA ++ clusterStreamFull p restA :=
          clusterStreamFull_cons p a t
        by_cases hrn : restA = []
        · -- all of A belongs to the first event; B starts a different event
          have hruneq : runA = a :: t := by
            rw [hrunA]
            exact takeWhile_eq_self_of_dropWhile_nil pred (hrestA ▸ hrn)
          have hall : ∀ x ∈ (a :: t), pred x = true := by
            intro x hx
            exact hallrun x (by rw [hruneq]; exact hx)
          have hpredb : pred b = false := by
            have hlastmem := List.getLast_mem (List.cons_ne_nil a t)
            have hlastpred := hall _ hlastmem
            rw [hpred] at hlastpred
            simp only [decide_eq_true_eq] at hlastpred
            have hb := hbound b (by rw [hB]; rfl)
            rw [List.getLast?_eq_getLast_of_ne_nil (List.cons_ne_nil a t)]
              at hb
            simp only [Option.map_some'] at hb
            rw [hlastpred] at hb
            rw [hpred]
            simp only [decide_eq_false_iff_not]
            intro hcon
            exact hb (by rw [hcon])
          have htake : ((a :: t) ++ B).takeWhile pred = a :: t := by
            rw [takeWhile_append_all pred B hall, hB,
              takeWhile_cons_false pred bs hpredb, List.append_nil]
          have hdrop : ((a :: t) ++ B).dropWhile pred = B := by
            rw [dropWhile_append_all pred B hall, hB,
              dropWhile_cons_false pred bs hpredb]
          rw [hunfoldAB, htake, hdrop, hunfoldA, ← hruneq, hrn]
          have hnil : clusterStreamFull p ([] : List Hit) = [] := rfl
          rw [hnil, List.append_nil]
        · -- the first event ends inside A; recurse on the tail of A
          rcases hrsplit : restA with _ | ⟨r, rs⟩
          · exact absurd hrsplit hrn
          have hpredr : pred r = false :=
            head_dropWhile_false pred (a :: t) (hrestA ▸ hrsplit)
          have htake : ((a :: t) ++ B).takeWhile pred = runA := by
            have : (a :: t) ++ B = runA ++ (restA ++ B) := by
              rw [← List.append_assoc, hsplitA]
            rw [this, takeWhile_append_all pred (restA ++ B) hallrun,
              hrsplit, List.cons_append,
              takeWhile_cons_false pred (rs ++ B) hpredr, List.append_nil]
          have hdrop : ((a :: t) ++ B).dropWhile pred = restA ++ B := by
            have : (a :: t) ++ B = runA ++ (restA ++ B) := by
              rw [← List.append_assoc, hsplitA]
            rw [this, dropWhile_append_all pred (restA ++ B) hallrun,
              hrsplit, List.cons_append,
              dropWhile_cons_false pred (rs ++ B) hpredr]
          have hrestlen : restA.length ≤ n := by
            have h1 : restA.length ≤ t.length := by
              rw [hrestA]
              exact clusterStream_rest_length a t
            have h2 : t.length + 1 ≤ n + 1 := by simpa using hA
            omega
          have hboundrest : ∀ x ∈ B.head?,
              restA.getLast?.map Hit.event_number ≠ some x.event_number := by
            intro x hx
            have hgl : restA.getLast? = (a :: t).getLast? := by
              rw [← hsplitA]
              exact (List.getLast?_append_of_ne_nil runA hrn).symm
            rw [hgl]
            exact hbound x hx
          rw [hunfoldAB, htake, hdrop,
            ih restA hrestlen B hrn hboundrest, hunfoldA,
            List.append_assoc]

/-- Every surviving hit's event number reaches the cluster stream. -/
theorem clusterStream_surviving_aux (p : ClusterParams) :
    ∀ (n : Nat) (l : List Hit), l.length ≤ n →
      ∀ h ∈ l, hitSurvives p h = true →
        ∃ cl ∈ clusterStreamFull p l, cl.event_number = h.event_number := by
  intro n
  induction n with
  | zero =>
    intro l hl h hh _
    have : l = [] := List.length_eq_zero.mp (Nat.le_zero.mp hl)
    subst this
    simp at hh
  | succ n ih =>
    intro l hl h hh hsurv
    cases l with
    | nil => simp at hh
    | cons a t =>
      set pred : Hit → Bool := fun x =>
        decide (x.event_number = a.event_number) with hpred
      set runA := (a :: t).takeWhile pred with hrunA
      set restA := (a :: t).dropWhile pred with hrestA
      have hsplitA : runA ++ restA = a :: t :=
        List.takeWhile_append_dropWhile _ _
      rw [clusterStreamFull_cons]
      have hmem : h ∈ runA ++ restA := by rw [hsplitA]; exact hh
      rcases List.mem_append.mp hmem with hrun | hrest
      · -- the hit belongs to the first event's run
        have hfil : h ∈ runA.filter (hitSurvives p) :=
          List.mem_filter.mpr ⟨hrun, hsurv⟩
        have hne : runA.filter (hitSurvives p) ≠ [] := by
          intro hcon
          rw [hcon] at hfil
          simp at hfil
        have hcene : clusterEvent p a.event_number runA ≠ [] :=
          clusterEvent_ne_nil hne
        rcases List.exists_mem_of_ne_nil _ hcene with ⟨cl, hcl⟩
        refine ⟨cl, List.mem_append_left _ hcl, ?_⟩
        have hev : h.event_number = a.event_number := by
          have := pred_of_mem_takeWhile pred (hrunA ▸ hrun)
          rw [hpred] at this
          simpa using this
        rw [clusterEvent_event hcl, hev]
      · -- the hit belongs to a later event; recurse
        have hrestlen : restA.length ≤ n := by
          have h1 : restA.length ≤ t.length := by
            rw [hrestA]
            exact clusterStream_rest_length a t
          have h2 : t.length + 1 ≤ n + 1 := by simpa using hl
          omega
        rcases ih restA hrestlen h hrest hsurv with ⟨cl, hcl, hev⟩
        exact ⟨cl, List.mem_append_right _ hcl, hev⟩

/-- The chunk loop of `cluster_hits` on a monotone hit stream runs to
completion without raising and writes exactly the clusterizer's stream of the
whole table, independently of the chunk size. -/
theorem cluster_hits_eq_full_aux (p : ClusterParams) (csize : Nat) :
    ∀ (n : Nat) (hits : List Hit), hits.length ≤ n →
      nonDecreasing (hits.map Hit.event_number) = true →
      processChunks p (dataAlignedChunks csize hits) =
        (clusterStreamFull p hits, false) := by
  intro n
  induction n with
  | zero =>
    intro hits hl _
    have : hits = [] := List.length_eq_zero.mp (Nat.le_zero.mp hl)
    subst this
    rfl
  | succ n ih =>
    intro hits hl hmono
    cases hits with
    | nil => rfl
    | cons h t =>
      rcases dataAlignedChunks_cons csize h t with
        ⟨chunk, rest, hstep, hsplit, hcne, hrlen, hbound⟩
      rw [hstep]
      have hmapsplit : chunk.map Hit.event_number ++
          rest.map Hit.event_number = (h :: t).map Hit.event_number := by
        rw [← List.map_append, hsplit]
      have hchunkmono : nonDecreasing (chunk.map Hit.event_number) = true := by
        apply nonDecreasing_append_left (B := rest.map Hit.event_number)
        rw [hmapsplit]
        exact hmono
      have hrestmono : nonDecreasing (rest.map Hit.event_number) = true := by
        apply nonDecreasing_append_right (A := chunk.map Hit.event_number)
        rw [hmapsplit]
        exact hmono
      have houtmono : nonDecreasing
          ((clusterStreamFull p chunk).map Cluster.event_number) = true :=
        clusterStream_monotone_aux p chunk.length chunk le_rfl hchunkmono
      have hrlen' : rest.length ≤ n := by
        have : t.length + 1 ≤ n + 1 := by simpa using hl
        omega
      show processChunks p (chunk :: dataAlignedChunks csize rest) = _
      rw [processChunks]
      rw [if_neg (by rw [hchunkmono]; simp)]
      simp only
      rw [if_neg (by rw [houtmono]; simp)]
      rw [ih rest hrlen' hrestmono]
      by_cases hrn : rest = []
      · subst hrn
        have hnil : clusterStreamFull p ([] : List Hit) = [] := rfl
        rw [hnil]
        rw [List.append_nil] at hsplit
        rw [hsplit]
        simp
      · rw [← clusterStream_append_aux p chunk.length chunk le_rfl rest hcne
          hbound, hsplit]

/-- `cluster_hits` on a stream with globally non-decreasing event numbers:
no error, and the output rows are the clusterizer's stream of the whole
table, whatever the chunk size. -/
theorem cluster_hits_eq_full (p : ClusterParams) (csize : Nat)
    (hits : List Hit)
    (hmono : nonDecreasing (hits.map Hit.event_number) = true) :
    cluster_hits p csize hits = (clusterStreamFull p hits, false) :=
  cluster_hits_eq_full_aux p csize hits.length hits le_rfl hmono

/-- Any chunk whose hit event numbers decrease internally makes the chunk
loop raise. -/
theorem processChunks_error_of_bad_chunk (p : ClusterParams) :
    ∀ chunks : List (List Hit),
      (∃ c ∈ chunks, nonDecreasing (c.map Hit.event_number) = false) →
      (processChunks p chunks).2 = true := by
  intro chunks
  induction chunks with
  | nil => rintro ⟨c, hc, _⟩; simp at hc
  | cons c cs ih =>
    rintro ⟨c', hc', hbad⟩
    rw [processChunks]
    by_cases h1 : nonDecreasing (c.map Hit.event_number) = false
    · rw [if_pos h1]
    · rw [if_neg h1]
      simp only
      by_cases h2 : nonDecreasing
          ((clusterStreamFull p c).map Cluster.event_number) = false
      · rw [if_pos h2]
      · rw [if_neg h2]
        simp only
        apply ih
        rcases List.mem_cons.mp hc' with rfl | hmem
        · exact absurd hbad h1
        · exact ⟨c', hmem, hbad⟩

/-- The output table content is always the clusters of a prefix of the
chunks, the full list of chunks exactly when no error was raised. -/
theorem processChunks_prefix_shape (p : ClusterParams) :
    ∀ chunks : List (List Hit),
      ∃ k, k ≤ chunks.length ∧
        (processChunks p chunks).1 =
          ((chunks.take k).map (clusterStreamFull p)).flatten ∧
        ((processChunks p chunks).2 = false → k = chunks.length) := by
  intro chunks
  induction chunks with
  | nil => exact ⟨0, by simp, rfl, fun _ => rfl⟩
  | cons c cs ih =>
    rw [processChunks]
    by_cases h1 : nonDecreasing (c.map Hit.event_number) = false
    · rw [if_pos h1]
      exact ⟨0, by simp, rfl, fun hcon => by simp at hcon⟩
    · rw [if_neg h1]
      simp only
      by_cases h2 : nonDecreasing
          ((clusterStreamFull p c).map Cluster.event_number) = false
      · rw [if_pos h2]
        exact ⟨0, by simp, rfl, fun hcon => by simp at hcon⟩
      · rw [if_neg h2]
        simp only
        rcases ih with ⟨k, hk, h3, h4⟩
        refine ⟨k + 1, by simpa using hk, ?_, ?_⟩
        · rw [List.take_cons, List.map_cons, List.flatten_cons, h3]
          · simp
          · exact Nat.succ_pos k
        · intro herr
          rw [h4 herr]
          simp

/-- Default clusterizer parameters of `cluster_hits`: `min_hit_charge=0`,
`max_hit_charge=None`, all cluster distances 1, no mask files. -/
def defaultParams : ClusterParams :=
  { min_hit_charge := 0
    max_hit_charge := none
    column_cluster_distance := 1
    row_cluster_distance := 1
    frame_cluster_distance := 1
    disabled_pixels := []
    noisy_pixels := [] }

/-- The formal parameter names of `cluster_hits`, transcribed from its `def`
signature (hit_analysis.py line 165). -/
def cluster_hits_parameters : List String :=
  ["input_hits_file", "output_cluster_file", "input_disabled_pixel_mask_file",
   "input_noisy_pixel_mask_file", "min_hit_charge", "max_hit_charge",
   "column_cluster_distance", "row_cluster_distance",
   "frame_cluster_distance", "dut_name", "plot", "chunk_size"]

/-- Claim C2, counterexample: a hit stream whose event number decreases
exactly at a chunk boundary (chunk size 1 makes the event-aligned reader cut
between the two single-hit events) contains a decreasing event_number, yet
`cluster_hits` raises no error and emits a non-empty cluster table. -/
theorem c2_counterexample :
    nonDecreasing (([⟨2, 10, 10, 5, 0⟩, ⟨1, 10, 10, 5, 0⟩] : List Hit).map
        Hit.event_number) = false ∧
    (cluster_hits defaultParams 1
      [⟨2, 10, 10, 5, 0⟩, ⟨1, 10, 10, 5, 0⟩]).2 = false ∧
    (cluster_hits defaultParams 1
      [⟨2, 10, 10, 5, 0⟩, ⟨1, 10, 10, 5, 0⟩]).1 ≠ [] :=
  ⟨by decide, by decide, by decide⟩

/-- Claim C2 (amended): `cluster_hits` raises the fatal `RuntimeError`
whenever a chunk delivered by the event-aligned reader contains an internal
decrease of the event number — so any decrease not falling exactly on a chunk
boundary is fatal; a decrease exactly at a chunk boundary escapes the
per-chunk `np.diff` check. -/
theorem c2_error_on_bad_chunk (p : ClusterParams) (csize : Nat)
    (hits : List Hit)
    (h : ∃ c ∈ dataAlignedChunks csize hits,
      nonDecreasing (c.map Hit.event_number) = false) :
    (cluster_hits p csize hits).2 = true :=
  processChunks_error_of_bad_chunk p _ h

/-- Witness for C2: a stream whose decrease lies inside a single chunk makes
`cluster_hits` raise. -/
theorem c2_error_on_bad_chunk_witness :
    (∃ c ∈ dataAlignedChunks 2 [(⟨2, 10, 10, 5, 0⟩ : Hit), ⟨1, 10, 10, 5, 0⟩],
      nonDecreasing (c.map Hit.event_number) = false) ∧
    (cluster_hits defaultParams 2
      [⟨2, 10, 10, 5, 0⟩, ⟨1, 10, 10, 5, 0⟩]).2 = true :=
  ⟨by decide, c2_error_on_bad_chunk defaultParams 2
    [⟨2, 10, 10, 5, 0⟩, ⟨1, 10, 10, 5, 0⟩] (by decide)⟩

/-- Claim C4: on a hit stream accepted by `cluster_hits` (non-decreasing
event numbers) the emitted cluster stream's event numbers are non-decreasing,
and every event number carried by a surviving hit (within charge bounds and
not masked) appears on some emitted cluster. -/
theorem c4_cluster_stream_monotone_and_complete (p : ClusterParams)
    (csize : Nat) (hits : List Hit)
    (hmono : nonDecreasing (hits.map Hit.event_number) = true) :
    nonDecreasing ((cluster_hits p csize hits).1.map Cluster.event_number) =
        true ∧
      ∀ h ∈ hits, hitSurvives p h = true →
        ∃ cl ∈ (cluster_hits p csize hits).1,
          cl.event_number = h.event_number := by
  rw [cluster_hits_eq_full p csize hits hmono]
  exact ⟨clusterStream_monotone_aux p hits.length hits le_rfl hmono,
    fun h hh hs => clusterStream_surviving_aux p hits.length hits le_rfl
      h hh hs⟩

/-- Witness for C4 at a concrete three-hit, two-event stream. -/
theorem c4_witness :
    nonDecreasing (([⟨1, 5, 5, 3, 0⟩, ⟨1, 6, 5, 4, 0⟩, ⟨2, 9, 9, 1, 0⟩] :
        List Hit).map Hit.event_number) = true ∧
    (nonDecreasing ((cluster_hits defaultParams 1
        [⟨1, 5, 5, 3, 0⟩, ⟨1, 6, 5, 4, 0⟩, ⟨2, 9, 9, 1, 0⟩]).1.map
        Cluster.event_number) = true ∧
      ∀ h ∈ ([⟨1, 5, 5, 3, 0⟩, ⟨1, 6, 5, 4, 0⟩, ⟨2, 9, 9, 1, 0⟩] : List Hit),
        hitSurvives defaultParams h = true →
        ∃ cl ∈ (cluster_hits defaultParams 1
          [⟨1, 5, 5, 3, 0⟩, ⟨1, 6, 5, 4, 0⟩, ⟨2, 9, 9, 1, 0⟩]).1,
          cl.event_number = h.event_number) :=
  ⟨by decide, c4_cluster_stream_monotone_and_complete defaultParams 1
    [⟨1, 5, 5, 3, 0⟩, ⟨1, 6, 5, 4, 0⟩, ⟨2, 9, 9, 1, 0⟩] (by decide)⟩

/-- Claim C5: clustering is deterministic — on an accepted (monotone) stream
the rows written by `cluster_hits` depend only on the input hits and the
parameters; in particular two runs with the same chunk size, and even runs
with different chunk sizes, produce identical cluster rows. -/
theorem c5_cluster_hits_deterministic (p : ClusterParams) (c1 c2 : Nat)
    (hits : List Hit)
    (hmono : nonDecreasing (hits.map Hit.event_number) = true) :
    cluster_hits p c1 hits = cluster_hits p c2 hits := by
  rw [cluster_hits_eq_full p c1 hits hmono,
    cluster_hits_eq_full p c2 hits hmono]

/-- Witness for C5 with chunk sizes 1 and 3. -/
theorem c5_witness :
    nonDecreasing (([⟨1, 5, 5, 3, 0⟩, ⟨1, 6, 5, 4, 0⟩, ⟨2, 9, 9, 1, 0⟩] :
        List Hit).map Hit.event_number) = true ∧
    cluster_hits defaultParams 1
        [⟨1, 5, 5, 3, 0⟩, ⟨1, 6, 5, 4, 0⟩, ⟨2, 9, 9, 1, 0⟩] =
      cluster_hits defaultParams 3
        [⟨1, 5, 5, 3, 0⟩, ⟨1, 6, 5, 4, 0⟩, ⟨2, 9, 9, 1, 0⟩] :=
  ⟨by decide, c5_cluster_hits_deterministic defaultParams 1 3
    [⟨1, 5, 5, 3, 0⟩, ⟨1, 6, 5, 4, 0⟩, ⟨2, 9, 9, 1, 0⟩] (by decide)⟩

/-- Claim C7, counterexample: a stream whose event number decreases inside
the second chunk makes `cluster_hits` raise, yet the clusters of the first
chunk have already been appended: the committed output file is non-empty and
incomplete, contradicting `complete result or nothing`. -/
theorem c7_counterexample :
    (cluster_hits defaultParams 2
      [⟨1, 1, 1, 1, 0⟩, ⟨5, 2, 2, 1, 0⟩, ⟨3, 3, 3, 1, 0⟩,
        ⟨2, 4, 4, 1, 0⟩]).2 = true ∧
    (cluster_hits defaultParams 2
      [⟨1, 1, 1, 1, 0⟩, ⟨5, 2, 2, 1, 0⟩, ⟨3, 3, 3, 1, 0⟩,
        ⟨2, 4, 4, 1, 0⟩]).1 ≠ [] :=
  ⟨by decide, by decide⟩

/-- Claim C7 (amended): on a fatal error `cluster_hits` stops at the first
chunk failing a monotonicity check, and the output cluster file retains
exactly the clusters of the chunks processed before it (a prefix of the chunk
list; the whole list exactly when no error was raised). -/
theorem c7_output_chunkwise_shape (p : ClusterParams) (csize : Nat)
    (hits : List Hit) :
    ∃ k, k ≤ (dataAlignedChunks csize hits).length ∧
      (cluster_hits p csize hits).1 =
        (((dataAlignedChunks csize hits).take k).map
          (clusterStreamFull p)).flatten ∧
      ((cluster_hits p csize hits).2 = false →
        k = (dataAlignedChunks csize hits).length) :=
  processChunks_prefix_shape p _

/-- Claim C9, counterexample: the transcribed signature of `cluster_hits`
carries no maximum-cluster-size parameter — neither `max_cluster_hits` nor
any other cluster-size bound is among its inputs, so the claim that the
clusterer `accepts a maximum cluster size parameter among its inputs` fails
on the code. -/
theorem c9_counterexample :
    "max_cluster_hits" ∉ cluster_hits_parameters ∧
      "max_cluster_size" ∉ cluster_hits_parameters ∧
      cluster_hits_parameters.length = 12 :=
  ⟨by decide, by decide, by decide⟩

/-- Claim C9 (amended): `cluster_hits` exposes no maximum-cluster-size
parameter, and no cluster is removed from the output on account of its size:
on an accepted stream every cluster the clusterizer forms — whatever its
`n_hits` — appears in the output table. -/
theorem c9_no_cluster_dropped (p : ClusterParams) (csize : Nat)
    (hits : List Hit)
    (hmono : nonDecreasing (hits.map Hit.event_number) = true) :
    (cluster_hits p csize hits).2 = false ∧
      ∀ cl ∈ clusterStreamFull p hits, cl ∈ (cluster_hits p csize hits).1 := by
  rw [cluster_hits_eq_full p csize hits hmono]
  exact ⟨rfl, fun cl h => h⟩

/-- Witness for C9: a four-hit chain clustered into one four-hit cluster is
emitted. -/
theorem c9_witness :
    nonDecreasing (([⟨1, 10, 10, 1, 0⟩, ⟨1, 11, 10, 1, 0⟩, ⟨1, 12, 10, 1, 0⟩,
        ⟨1, 13, 10, 1, 0⟩] : List Hit).map Hit.event_number) = true ∧
    ((cluster_hits defaultParams 2
        [⟨1, 10, 10, 1, 0⟩, ⟨1, 11, 10, 1, 0⟩, ⟨1, 12, 10, 1, 0⟩,
          ⟨1, 13, 10, 1, 0⟩]).2 = false ∧
      ∀ cl ∈ clusterStreamFull defaultParams
        [⟨1, 10, 10, 1, 0⟩, ⟨1, 11, 10, 1, 0⟩, ⟨1, 12, 10, 1, 0⟩,
          ⟨1, 13, 10, 1, 0⟩],
        cl ∈ (cluster_hits defaultParams 2
          [⟨1, 10, 10, 1, 0⟩, ⟨1, 11, 10, 1, 0⟩, ⟨1, 12, 10, 1, 0⟩,
            ⟨1, 13, 10, 1, 0⟩]).1) :=
  ⟨by decide, c9_no_cluster_dropped defaultParams 2
    [⟨1, 10, 10, 1, 0⟩, ⟨1, 11, 10, 1, 0⟩, ⟨1, 12, 10, 1, 0⟩,
      ⟨1, 13, 10, 1, 0⟩] (by decide)⟩

/-- Modelled from the spec: `analysis_utils.hist_2d_index(col - 1, row - 1,
shape=n_pixel)` accumulates the 2D occupancy histogram — the count of hits
binned at `(column - 1, row - 1)`. -/
def occupancyOf (hits : List Hit) (c r : Nat) : Nat :=
  (hits.filter (fun h => h.column = c + 1 ∧ h.row = r + 1)).length

/-- The chunked occupancy accumulation of `generate_pixel_mask`
(lines 55-64): `occupancy` starts as `None` and becomes the running sum of
the per-chunk histograms; it stays `None` when the reader yields no chunk. -/
def occupancyChunks (chunks : List (List Hit))
    (acc : Option (Nat → Nat → Nat)) : Option (Nat → Nat → Nat) :=
  chunks.foldl
    (fun acc ch =>
      match acc with
      | none => some (occupancyOf ch)
      | some o => some (fun c r => o c r + occupancyOf ch c r)) acc

/-- One insertion step of the insertion sort used to model `np.sort` inside
the median filter. -/
def insertSorted (x : Int) : List Int → List Int
  | [] => [x]
  | y :: ys => if x ≤ y then x :: y :: ys else y :: insertSorted x ys

/-- Sorting a value list ascending. -/
def sortInts (l : List Int) : List Int := l.foldr insertSorted []

/-- The median as `scipy.ndimage.median_filter` takes it: element of rank
`size / 2` of the sorted window (the true median for odd window sizes). -/
def medianScipy (l : List Int) : Int := (sortInts l).getD (l.length / 2) 0

/-- The occupancy value used by the filter window: the stored count inside
the grid, the constant 0 past the edges (`mode='constant', cval=0.0`). -/
def borderedOcc (occ : Nat → Nat → Nat) (ncols nrows : Nat) (ci ri : Int) :
    Int :=
  if 0 ≤ ci ∧ ci < ncols ∧ 0 ≤ ri ∧ ri < nrows then occ ci.toNat ri.toNat
  else 0

/-- The `s × s` filter window around pixel `(c, r)`, offsets `-s/2 … s-1-s/2`
per axis as `scipy.ndimage` places a size-`s` footprint with origin 0. -/
def windowVals (occ : Nat → Nat → Nat) (ncols nrows s : Nat) (c r : Nat) :
    List Int :=
  (List.range s).flatMap (fun i =>
    (List.range s).map (fun j =>
      borderedOcc occ ncols nrows ((c : Int) + i - (s / 2 : Nat))
        ((r : Int) + j - (s / 2 : Nat))))

/-- `median_filter(occupancy, size=filter_size, mode='constant', cval=0.0)`
at one pixel (line 67; scalar `filter_size`, i.e. a square window). -/
def blurredAt (occ : Nat → Nat → Nat) (ncols nrows s : Nat) (c r : Nat) :
    Int :=
  medianScipy (windowVals occ ncols nrows s c r)

/-- `difference = occupancy - blurred` at one pixel (line 69). -/
def differenceAt (occ : Nat → Nat → Nat) (ncols nrows s : Nat) (c r : Nat) :
    Int :=
  (occ c r : Int) - blurredAt occ ncols nrows s c r

/-- All pixel coordinates of the grid, row-major. -/
def gridIdx (ncols nrows : Nat) : List (Nat × Nat) :=
  (List.range ncols).flatMap (fun c =>
    (List.range nrows).map (fun r => (c, r)))

/-- The flattened `difference` array over all pixels. -/
def diffList (occ : Nat → Nat → Nat) (ncols nrows s : Nat) : List Int :=
  (gridIdx ncols nrows).map (fun cr => differenceAt occ ncols nrows s cr.1 cr.2)

/-- Arithmetic mean of an integer list as an exact rational. -/
def meanQ (l : List Int) : ℚ := ((l.map (fun d => (d : ℚ))).sum) / l.length

/-- `np.ma.std(difference)` squared: the population variance (`ddof=0`) of
the difference array over all pixels, in exact rational arithmetic. -/
def varianceQ (l : List Int) : ℚ :=
  ((l.map (fun d => ((d : ℚ) - meanQ l) ^ 2)).sum) / l.length

/-- Decides `difference > threshold * std` (line 71-72) in exact arithmetic:
for `v ≥ 0` this is exactly `(d : ℝ) > t * Real.sqrt v`, split on the sign
of `t` to avoid the square root (the source computes `threshold * std` in
floating point). -/
def exceedsThreshold (t : ℚ) (v : ℚ) (d : Int) : Bool :=
  if 0 ≤ t then decide (0 < d ∧ t ^ 2 * v < (d : ℚ) ^ 2)
  else decide (0 < d ∨ (d : ℚ) ^ 2 < t ^ 2 * v)

/-- `generate_pixel_mask` (lines 18-89): build the chunked occupancy, smooth
it with the median filter, mask every pixel whose difference exceeds
`threshold · σ`, and store mask and occupancy (materialised row-major as the
output file's arrays).  `none` models the run that raises: with no hits the
chunk loop never executes, `occupancy` stays `None` and
`occupancy.astype(np.int32)` fails. -/
def generate_pixel_mask (ncols nrows : Nat) (threshold : ℚ) (s : Nat)
    (csize : Nat) (hits : List Hit) :
    Option (List (List Bool) × List (List Nat)) :=
  match occupancyChunks (dataAlignedChunks csize hits) none with
  | none => none
  | some occ =>
    let v := varianceQ (diffList occ ncols nrows s)
    let mask := (List.range ncols).map (fun c =>
      (List.range nrows).map (fun r =>
        exceedsThreshold threshold v (differenceAt occ ncols nrows s c r)))
    let occArr := (List.range ncols).map (fun c =>
      (List.range nrows).map (fun r => occ c r))
    some (mask, occArr)

/-- Reading one entry of the materialised pixel mask. -/
def maskAt (mask : List (List Bool)) (c r : Nat) : Bool :=
  ((mask.getD c []).getD r false)

theorem occupancyOf_append (A B : List Hit) (c r : Nat) :
    occupancyOf (A ++ B) c r = occupancyOf A c r + occupancyOf B c r := by
  simp [occupancyOf, List.filter_append]

theorem dataAlignedChunks_flatten (csize : Nat) :
    ∀ (n : Nat) (l : List Hit), l.length ≤ n →
      (dataAlignedChunks csize l).flatten = l := by
  intro n
  induction n with
  | zero =>
    intro l hl
    have : l = [] := List.length_eq_zero.mp (Nat.le_zero.mp hl)
    subst this
    rfl
  | succ n ih =>
    intro l hl
    cases l with
    | nil => rfl
    | cons h t =>
      rcases dataAlignedChunks_cons csize h t with
        ⟨chunk, rest, hstep, hsplit, _, hrlen, _⟩
      rw [hstep, List.flatten_cons,
        ih rest (le_trans hrlen (by simpa using hl)), hsplit]

theorem occupancyChunks_some (chunks : List (List Hit))
    (o : Nat → Nat → Nat) :
    occupancyChunks chunks (some o) =
      some (fun c r => o c r + occupancyOf chunks.flatten c r) := by
  induction chunks generalizing o with
  | nil => rfl
  | cons ch cs ih =>
    show occupancyChunks cs (some fun c r => o c r + occupancyOf ch c r) = _
    rw [ih]
    congr 1
    funext c r
    rw [List.flatten_cons, occupancyOf_append]
    ring

theorem occupancyChunks_ne_nil {chunks : List (List Hit)}
    (h : chunks ≠ []) :
    occupancyChunks chunks none = some (occupancyOf chunks.flatten) := by
  cases chunks with
  | nil => exact absurd rfl h
  | cons ch cs =>
    show occupancyChunks cs (some (occupancyOf ch)) = _
    rw [occupancyChunks_some]
    congr 1
    funext c r
    rw [List.flatten_cons, occupancyOf_append]

theorem dataAlignedChunks_ne_nil (csize : Nat) {l : List Hit} (h : l ≠ []) :
    dataAlignedChunks csize l ≠ [] := by
  cases l with
  | nil => exact absurd rfl h
  | cons a t =>
    rcases dataAlignedChunks_cons csize a t with
      ⟨chunk, rest, hstep, _, _, _, _⟩
    rw [hstep]
    exact List.cons_ne_nil _ _

/-- The occupancy accumulated chunkwise by `generate_pixel_mask` over a
non-empty stream is the occupancy histogram of the whole stream. -/
theorem occupancyChunks_dataAligned (csize : Nat) {hits : List Hit}
    (h : hits ≠ []) :
    occupancyChunks (dataAlignedChunks csize hits) none =
      some (occupancyOf hits) := by
  rw [occupancyChunks_ne_nil (dataAlignedChunks_ne_nil csize h),
    dataAlignedChunks_flatten csize hits.length hits le_rfl]

/-- `generate_pixel_mask` on a non-empty stream, with the chunked occupancy
replaced by the whole-stream histogram. -/
theorem generate_pixel_mask_eq (ncols nrows : Nat) (threshold : ℚ)
    (s csize : Nat) {hits : List Hit} (h : hits ≠ []) :
    generate_pixel_mask ncols nrows threshold s csize hits =
      some ((List.range ncols).map (fun c =>
          (List.range nrows).map (fun r =>
            exceedsThreshold threshold
              (varianceQ (diffList (occupancyOf hits) ncols nrows s))
              (differenceAt (occupancyOf hits) ncols nrows s c r))),
        (List.range ncols).map (fun c =>
          (List.range nrows).map (fun r => occupancyOf hits c r))) := by
  rw [generate_pixel_mask, occupancyChunks_dataAligned csize h]

/-- Claim C3: the code path for an empty hit table.  The chunk loop of
`generate_pixel_mask` never executes, `occupancy` stays `None`, and the
subsequent `occupancy.astype(np.int32)` raises instead of producing the empty
mask the specification promises. -/
theorem c3_empty_hits_error (ncols nrows : Nat) (threshold : ℚ)
    (s csize : Nat) :
    generate_pixel_mask ncols nrows threshold s csize [] = none := rfl

theorem varianceQ_nonneg (l : List Int) : 0 ≤ varianceQ l := by
  apply div_nonneg
  · apply List.sum_nonneg
    intro x hx
    rcases List.mem_map.mp hx with ⟨d, _, rfl⟩
    exact sq_nonneg _
  · exact_mod_cast Nat.zero_le _

theorem getD_range_map {α : Type} (f : Nat → α) {n i : Nat} (d : α)
    (h : i < n) : ((List.range n).map f).getD i d = f i := by
  rw [List.getD_eq_getElem?_getD, List.getElem?_map, List.getElem?_range h]
  rfl

/-- `exceedsThreshold` decides the specification's masking inequality
`difference > threshold · σ` with `σ` the real square root of the
variance. -/
theorem exceedsThreshold_iff (t v : ℚ) (d : Int) (hv : 0 ≤ v) :
    exceedsThreshold t v d = true ↔
      (t : ℝ) * Real.sqrt (v : ℝ) < (d : ℝ) := by
  have hv' : (0 : ℝ) ≤ (v : ℝ) := by exact_mod_cast hv
  have hs : 0 ≤ Real.sqrt (v : ℝ) := Real.sqrt_nonneg _
  have hsq : Real.sqrt (v : ℝ) ^ 2 = (v : ℝ) := Real.sq_sqrt hv'
  by_cases ht : 0 ≤ t
  · have ht' : (0 : ℝ) ≤ (t : ℝ) := by exact_mod_cast ht
    have hts : 0 ≤ (t : ℝ) * Real.sqrt (v : ℝ) := mul_nonneg ht' hs
    rw [exceedsThreshold, if_pos ht]
    simp only [decide_eq_true_eq]
    constructor
    · rintro ⟨hd, hlt⟩
      have hD : (0 : ℝ) < (d : ℝ) := by exact_mod_cast hd
      have hlt' : (t : ℝ) ^ 2 * (v : ℝ) < ((d : ℝ)) ^ 2 := by
        exact_mod_cast hlt
      have hsqlt : ((t : ℝ) * Real.sqrt (v : ℝ)) ^ 2 < ((d : ℝ)) ^ 2 := by
        rw [mul_pow, hsq]
        exact hlt'
      calc (t : ℝ) * Real.sqrt (v : ℝ)
          = Real.sqrt (((t : ℝ) * Real.sqrt (v : ℝ)) ^ 2) :=
            (Real.sqrt_sq hts).symm
        _ < Real.sqrt (((d : ℝ)) ^ 2) := Real.sqrt_lt_sqrt (sq_nonneg _) hsqlt
        _ = (d : ℝ) := Real.sqrt_sq (le_of_lt hD)
    · intro hgt
      have hD : (0 : ℝ) < (d : ℝ) := lt_of_le_of_lt hts hgt
      refine ⟨by exact_mod_cast hD, ?_⟩
      have hpow : ((t : ℝ) * Real.sqrt (v : ℝ)) ^ 2 < ((d : ℝ)) ^ 2 := by
        apply pow_lt_pow_left₀ hgt hts
        exact two_ne_zero
      rw [mul_pow, hsq] at hpow
      exact_mod_cast hpow
  · have ht2 : t < 0 := lt_of_not_le ht
    have ht' : (t : ℝ) < 0 := by exact_mod_cast ht2
    have hts : (t : ℝ) * Real.sqrt (v : ℝ) ≤ 0 :=
      mul_nonpos_of_nonpos_of_nonneg (le_of_lt ht') hs
    rw [exceedsThreshold, if_neg ht]
    simp only [decide_eq_true_eq]
    constructor
    · rintro (hd | hlt)
      · have hD : (0 : ℝ) < (d : ℝ) := by exact_mod_cast hd
        exact lt_of_le_of_lt hts hD
      · have hlt' : ((d : ℝ)) ^ 2 < (t : ℝ) ^ 2 * (v : ℝ) := by
          exact_mod_cast hlt
        have hsqlt : ((d : ℝ)) ^ 2 < ((t : ℝ) * Real.sqrt (v : ℝ)) ^ 2 := by
          rw [mul_pow, hsq]
          exact hlt'
        have habs : |(d : ℝ)| < -((t : ℝ) * Real.sqrt (v : ℝ)) := by
          have h1 : Real.sqrt (((d : ℝ)) ^ 2) <
              Real.sqrt (((t : ℝ) * Real.sqrt (v : ℝ)) ^ 2) :=
            Real.sqrt_lt_sqrt (sq_nonneg _) hsqlt
          rw [Real.sqrt_sq_eq_abs, Real.sqrt_sq_eq_abs,
            abs_of_nonpos hts] at h1
          exact h1
        have := neg_abs_le (d : ℝ)
        linarith [neg_lt_of_abs_lt habs]
    · intro hgt
      by_cases hd : 0 < d
      · exact Or.inl hd
      · right
        have hD : (d : ℝ) ≤ 0 := by exact_mod_cast not_lt.mp hd
        have habs : |(d : ℝ)| < |(t : ℝ) * Real.sqrt (v : ℝ)| := by
          rw [abs_of_nonpos hD, abs_of_nonpos hts]
          linarith
        have hpow : ((d : ℝ)) ^ 2 < ((t : ℝ) * Real.sqrt (v : ℝ)) ^ 2 := by
          rw [← sq_abs (d : ℝ), ← sq_abs ((t : ℝ) * Real.sqrt (v : ℝ))]
          apply pow_lt_pow_left₀ habs (abs_nonneg _)
          exact two_ne_zero
        rw [mul_pow, hsq] at hpow
        exact_mod_cast hpow

/-- Claim C1: on a stream with at least one hit, `generate_pixel_mask` flags
pixel `(c, r)` as noisy exactly when `occupancy − smoothed` at `(c, r)`
exceeds `threshold · σ`, with `occupancy` the histogram of hits binned at
`(column − 1, row − 1)`, `smoothed` its zero-padded median filter and `σ` the
standard deviation of the difference array over all pixels; every other pixel
stays unmasked. -/
theorem c1_mask_characterization (ncols nrows : Nat) (threshold : ℚ)
    (s csize : Nat) (hits : List Hit) (c r : Nat)
    (hne : hits ≠ []) (hc : c < ncols) (hr : r < nrows) :
    ∃ mask occArr,
      generate_pixel_mask ncols nrows threshold s csize hits =
        some (mask, occArr) ∧
      (maskAt mask c r = true ↔
        (threshold : ℝ) *
            Real.sqrt ((varianceQ (diffList (occupancyOf hits) ncols nrows s) :
              ℚ) : ℝ) <
          ((occupancyOf hits c r : ℤ) -
            blurredAt (occupancyOf hits) ncols nrows s c r : ℤ)) := by
  refine ⟨_, _, generate_pixel_mask_eq ncols nrows threshold s csize hne, ?_⟩
  have hmask : maskAt ((List.range ncols).map (fun c =>
      (List.range nrows).map (fun r =>
        exceedsThreshold threshold
          (varianceQ (diffList (occupancyOf hits) ncols nrows s))
          (differenceAt (occupancyOf hits) ncols nrows s c r)))) c r =
      exceedsThreshold threshold
        (varianceQ (diffList (occupancyOf hits) ncols nrows s))
        (differenceAt (occupancyOf hits) ncols nrows s c r) := by
    rw [maskAt, getD_range_map _ _ hc, getD_range_map _ _ hr]
  rw [hmask, exceedsThreshold_iff _ _ _ (varianceQ_nonneg _)]
  rw [differenceAt]

/-- Witness for C1 on a 1×1 grid holding one hit. -/
theorem c1_mask_characterization_witness :
    ([(⟨0, 1, 1, 7, 0⟩ : Hit)] ≠ ([] : List Hit)) ∧ (0 : Nat) < 1 ∧
    (∃ mask occArr,
      generate_pixel_mask 1 1 10 3 1 [⟨0, 1, 1, 7, 0⟩] = some (mask, occArr) ∧
      (maskAt mask 0 0 = true ↔
        ((10 : ℚ) : ℝ) *
            Real.sqrt ((varianceQ (diffList
              (occupancyOf [⟨0, 1, 1, 7, 0⟩]) 1 1 3) : ℚ) : ℝ) <
          ((occupancyOf [⟨0, 1, 1, 7, 0⟩] 0 0 : ℤ) -
            blurredAt (occupancyOf [⟨0, 1, 1, 7, 0⟩]) 1 1 3 0 0 : ℤ))) :=
  ⟨by decide, by decide,
    c1_mask_characterization 1 1 10 3 1 [⟨0, 1, 1, 7, 0⟩] 0 0
      (by decide) (by decide) (by decide)⟩

/-- Claim C6: `generate_pixel_mask` is a function of the hit stream and the
parameters alone — two runs agree, and the produced `PixelMask` does not even
depend on the chunk size used to stream the table. -/
theorem c6_generate_pixel_mask_deterministic (ncols nrows : Nat)
    (threshold : ℚ) (s c1 c2 : Nat) (hits : List Hit) :
    generate_pixel_mask ncols nrows threshold s c1 hits =
      generate_pixel_mask ncols nrows threshold s c2 hits := by
  by_cases h : hits = []
  · subst h
    rfl
  · rw [generate_pixel_mask_eq ncols nrows threshold s c1 h,
      generate_pixel_mask_eq ncols nrows threshold s c2 h]

/-- `np.ravel_multi_index((c, r), dims=(ncols, nrows))` in C order. -/
def ravelIdx (nrows c r : Nat) : Nat := c * nrows + r

/-- The flattened indices of the flagged mask pixels
(`np.ravel_multi_index(np.nonzero(pixel_mask), dims=n_pixel)`, empty when the
mask flags nothing). -/
def maskedPixels1d (ncols nrows : Nat) (mask : List (List Bool)) : List Nat :=
  (gridIdx ncols nrows).filterMap (fun cr =>
    if maskAt mask cr.1 cr.2 then some (ravelIdx nrows cr.1 cr.2) else none)

/-- `remove_noisy_pixels` (lines 92-162): generate a `DisabledPixelMask` with
`generate_pixel_mask`, then stream the hit table and keep exactly the hits
whose flattened `(column-1, row-1)` index is not a flagged pixel
(`np.in1d(hits_1d, masked_pixels_1d, invert=True)`), appending chunk by
chunk; `none` models the run aborted by the crash of `generate_pixel_mask`
on an empty table. -/
def filteredHits (ncols nrows csize : Nat) (mask : List (List Bool))
    (hits : List Hit) : List Hit :=
  (dataAlignedChunks csize hits).flatMap (fun ch =>
    ch.filter (fun h =>
      !((maskedPixels1d ncols nrows mask).contains
        (ravelIdx nrows (h.column - 1) (h.row - 1)))))

def remove_noisy_pixels (ncols nrows : Nat) (threshold : ℚ) (s csize : Nat)
    (hits : List Hit) : Option (List Hit) :=
  match generate_pixel_mask ncols nrows threshold s csize hits with
  | none => none
  | some (mask, _) => some (filteredHits ncols nrows csize mask hits)

theorem mem_gridIdx {ncols nrows c r : Nat} :
    (c, r) ∈ gridIdx ncols nrows ↔ c < ncols ∧ r < nrows := by
  simp only [gridIdx, List.mem_flatMap, List.mem_map, List.mem_range,
    Prod.mk.injEq]
  constructor
  · rintro ⟨c', hc', r', hr', rfl, rfl⟩
    exact ⟨hc', hr'⟩
  · rintro ⟨hc, hr⟩
    exact ⟨c, hc, r, hr, rfl, rfl⟩

theorem ravelIdx_inj {nrows c r c' r' : Nat} (hr : r < nrows)
    (hr' : r' < nrows) (h : ravelIdx nrows c r = ravelIdx nrows c' r') :
    c = c' ∧ r = r' := by
  have hn : 0 < nrows := Nat.lt_of_le_of_lt (Nat.zero_le r) hr
  have hdiv : ∀ a b, b < nrows → (a * nrows + b) / nrows = a := by
    intro a b hb
    rw [mul_comm, Nat.mul_add_div hn, Nat.div_eq_of_lt hb, Nat.add_zero]
  have hc : c = c' := by
    have h' := h
    rw [ravelIdx, ravelIdx] at h'
    calc c = (c * nrows + r) / nrows := (hdiv c r hr).symm
      _ = (c' * nrows + r') / nrows := by rw [h']
      _ = c' := hdiv c' r' hr'
  refine ⟨hc, ?_⟩
  rw [ravelIdx, ravelIdx, hc] at h
  omega

theorem maskedPixels1d_contains {ncols nrows : Nat} {mask : List (List Bool)}
    {c r : Nat} (hc : c < ncols) (hr : r < nrows) :
    ((maskedPixels1d ncols nrows mask).contains (ravelIdx nrows c r) = true) ↔
      maskAt mask c r = true := by
  rw [List.elem_iff]
  simp only [maskedPixels1d, List.mem_filterMap]
  constructor
  · rintro ⟨⟨c', r'⟩, hgrid, hif⟩
    have hr' : r' < nrows := (mem_gridIdx.mp hgrid).2
    by_cases hm : maskAt mask c' r' = true
    · rw [if_pos hm] at hif
      have heq := Option.some_injective _ hif
      rcases ravelIdx_inj hr' hr heq with ⟨rfl, rfl⟩
      exact hm
    · rw [if_neg hm] at hif
      exact absurd hif (Option.some_ne_none _).symm
  · intro hm
    exact ⟨(c, r), mem_gridIdx.mpr ⟨hc, hr⟩, by rw [if_pos hm]⟩

theorem flatMap_filter (p : Hit → Bool) :
    ∀ chunks : List (List Hit),
      chunks.flatMap (fun ch => ch.filter p) = chunks.flatten.filter p := by
  intro chunks
  induction chunks with
  | nil => rfl
  | cons ch cs ih =>
    rw [List.flatMap_cons, List.flatten_cons, List.filter_append, ih]

theorem maskedPixels1d_contains_eq {ncols nrows : Nat}
    {mask : List (List Bool)} {c r : Nat} (hc : c < ncols) (hr : r < nrows) :
    (maskedPixels1d ncols nrows mask).contains (ravelIdx nrows c r) =
      maskAt mask c r := by
  cases hmv : maskAt mask c r with
  | true => exact (maskedPixels1d_contains hc hr).mpr hmv
  | false =>
    apply Bool.eq_false_iff.mpr
    intro hcon
    have h2 := (maskedPixels1d_contains hc hr).mp hcon
    rw [hmv] at h2
    exact Bool.false_ne_true h2

/-- The chunked hit filtering of `remove_noisy_pixels` equals filtering the
whole stream by the mask. -/
theorem remove_filter_eq (ncols nrows csize : Nat) (mask : List (List Bool))
    (hits : List Hit)
    (hrange : ∀ h ∈ hits,
      1 ≤ h.column ∧ h.column ≤ ncols ∧ 1 ≤ h.row ∧ h.row ≤ nrows) :
    filteredHits ncols nrows csize mask hits =
      hits.filter (fun h => !(maskAt mask (h.column - 1) (h.row - 1))) := by
  rw [filteredHits, flatMap_filter,
    dataAlignedChunks_flatten csize hits.length hits le_rfl]
  apply List.filter_congr
  intro h hh
  rcases hrange h hh with ⟨hc1, hc2, hr1, hr2⟩
  have hcb : h.column - 1 < ncols := by omega
  have hrb : h.row - 1 < nrows := by omega
  rw [maskedPixels1d_contains_eq hcb hrb]

/-- Claim C10: `remove_noisy_pixels` writes exactly the input hits whose
`(column − 1, row − 1)` pixel is not flagged in the generated
`DisabledPixelMask`, in their original order; with an all-false mask the
output equals the input. -/
theorem c10_remove_noisy_pixels (ncols nrows : Nat) (threshold : ℚ)
    (s csize : Nat) (hits : List Hit) (hne : hits ≠ [])
    (hrange : ∀ h ∈ hits,
      1 ≤ h.column ∧ h.column ≤ ncols ∧ 1 ≤ h.row ∧ h.row ≤ nrows) :
    ∃ mask occArr,
      generate_pixel_mask ncols nrows threshold s csize hits =
        some (mask, occArr) ∧
      remove_noisy_pixels ncols nrows threshold s csize hits =
        some (hits.filter (fun h =>
          !(maskAt mask (h.column - 1) (h.row - 1)))) ∧
      ((∀ c, c < ncols → ∀ r, r < nrows → maskAt mask c r = false) →
        remove_noisy_pixels ncols nrows threshold s csize hits =
          some hits) := by
  refine ⟨_, _, generate_pixel_mask_eq ncols nrows threshold s csize hne,
    ?_, ?_⟩
  · rw [remove_noisy_pixels,
      generate_pixel_mask_eq ncols nrows threshold s csize hne]
    simp only
    rw [remove_filter_eq ncols nrows csize _ hits hrange]
  · intro hallfalse
    rw [remove_noisy_pixels,
      generate_pixel_mask_eq ncols nrows threshold s csize hne]
    simp only
    rw [remove_filter_eq ncols nrows csize _ hits hrange]
    congr 1
    apply List.filter_eq_self.mpr
    intro h hh
    rcases hrange h hh with ⟨hc1, hc2, hr1, hr2⟩
    have hcb : h.column - 1 < ncols := by omega
    have hrb : h.row - 1 < nrows := by omega
    rw [hallfalse (h.column - 1) hcb (h.row - 1) hrb]
    rfl

/-- Witness for C10 on a 1×1 grid holding one hit (whose own pixel turns out
noisy, so the filtered table drops it). -/
theorem c10_remove_noisy_pixels_witness :
    (([(⟨0, 1, 1, 7, 0⟩ : Hit)] : List Hit) ≠ []) ∧
    (∀ h ∈ ([⟨0, 1, 1, 7, 0⟩] : List Hit),
      1 ≤ h.column ∧ h.column ≤ 1 ∧ 1 ≤ h.row ∧ h.row ≤ 1) ∧
    (∃ mask occArr,
      generate_pixel_mask 1 1 10 3 1 [⟨0, 1, 1, 7, 0⟩] = some (mask, occArr) ∧
      remove_noisy_pixels 1 1 10 3 1 [⟨0, 1, 1, 7, 0⟩] =
        some (([⟨0, 1, 1, 7, 0⟩] : List Hit).filter (fun h =>
          !(maskAt mask (h.column - 1) (h.row - 1)))) ∧
      ((∀ c, c < 1 → ∀ r, r < 1 → maskAt mask c r = false) →
        remove_noisy_pixels 1 1 10 3 1 [⟨0, 1, 1, 7, 0⟩] =
          some [⟨0, 1, 1, 7, 0⟩])) :=
  ⟨by decide, by decide,
    c10_remove_noisy_pixels 1 1 10 3 1 [⟨0, 1, 1, 7, 0⟩]
      (by decide) (by decide)⟩

/-- Content of one HDF5 file in the file-system model: a hit table, a
mask/occupancy file, the output of `remove_noisy_pixels` (filtered hits plus
occupancy and mask) or a cluster table. -/
inductive FileData where
  | hitsFile (hits : List Hit)
  | maskFile (mask : List (List Bool)) (occ : List (List Nat))
  | hitsMaskFile (hits : List Hit) (mask : List (List Bool))
      (occ : List (List Nat))
  | clusterFile (clusters : List Cluster)
deriving DecidableEq

/-- The file system: a map from path to file content. -/
def Fs : Type := String → Option FileData

/-- `tb.open_file(path, 'w')` followed by writing `d`: the path now holds
`d`, every other path is untouched. -/
def fsWrite (fs : Fs) (p : String) (d : FileData) : Fs :=
  fun q => if q = p then some d else fs q

/-- `os.path.splitext` on the character list: split at the last dot
(simplified: no directory-separator handling). -/
def splitExtChars : List Char → List Char × List Char
  | [] => ([], [])
  | c :: t =>
    if t.contains '.' then
      ((c :: (splitExtChars t).1), (splitExtChars t).2)
    else if c = '.' then ([], c :: t)
    else (c :: t, [])

/-- `os.path.splitext(input)[0] + suffix`: the default output path of a
stage. -/
def defaultPath (suffix : String) (p : String) : String :=
  String.mk ((splitExtChars p.data).1 ++ suffix.data)

/-- `generate_pixel_mask` at file level (lines 52-84): read the hit table at
`inPath`, compute mask and occupancy, and write them to the output mask file
(default `<base>_noisy_pixel_mask.h5` from
`pixel_mask_name="NoisyPixelMask"`).  The flag records a raise: missing or
foreign input, or the empty-table crash; in those runs nothing has been
written yet. -/
def generate_pixel_mask_fs (ncols nrows : Nat) (threshold : ℚ)
    (s csize : Nat) (fs : Fs) (inPath : String) (outPath : Option String) :
    Fs × Bool :=
  let out := outPath.getD (defaultPath "_noisy_pixel_mask.h5" inPath)
  match fs inPath with
  | some (FileData.hitsFile hits) =>
    match generate_pixel_mask ncols nrows threshold s csize hits with
    | none => (fs, true)
    | some (mask, occ) => (fsWrite fs out (FileData.maskFile mask occ), false)
  | _ => (fs, true)

/-- `remove_noisy_pixels` at file level (lines 92-162): generate the
`DisabledPixelMask` file (always at its default path, line 124), then write
the filtered hit table together with occupancy and mask to the output hits
file (default `<base>_noisy_pixels.h5`). -/
def remove_noisy_pixels_fs (ncols nrows : Nat) (threshold : ℚ)
    (s csize : Nat) (fs : Fs) (inPath : String) (outPath : Option String) :
    Fs × Bool :=
  let maskPath := defaultPath "_disabled_pixel_mask.h5" inPath
  let out := outPath.getD (defaultPath "_noisy_pixels.h5" inPath)
  match fs inPath with
  | some (FileData.hitsFile hits) =>
    match generate_pixel_mask ncols nrows threshold s csize hits with
    | none => (fs, true)
    | some (mask, occ) =>
      let fs1 := fsWrite fs maskPath (FileData.maskFile mask occ)
      (fsWrite fs1 out (FileData.hitsMaskFile
        (filteredHits ncols nrows csize mask hits) mask occ), false)
  | _ => (fs, true)

/-- `cluster_hits` at file level (lines 176-212): open the output cluster
file (default `<base>_cluster.h5`) and append chunkwise; on the
`RuntimeError` the rows appended so far stay in the file. -/
def cluster_hits_fs (p : ClusterParams) (csize : Nat) (fs : Fs)
    (inPath : String) (outPath : Option String) : Fs × Bool :=
  let out := outPath.getD (defaultPath "_cluster.h5" inPath)
  match fs inPath with
  | some (FileData.hitsFile hits) =>
    let r := cluster_hits p csize hits
    (fsWrite fs out (FileData.clusterFile r.1), r.2)
  | _ => (fs, true)

theorem splitExtChars_append (l : List Char) :
    (splitExtChars l).1 ++ (splitExtChars l).2 = l := by
  induction l with
  | nil => rfl
  | cons c t ih =>
    by_cases h1 : '.' ∈ t
    · simp [splitExtChars, h1, ih]
    · by_cases h2 : c = '.'
      · simp [splitExtChars, h1, h2]
      · simp [splitExtChars, h1, h2]

theorem splitExtChars_ext_head (l : List Char) :
    (splitExtChars l).2 = [] ∨ (splitExtChars l).2.head? = some '.' := by
  induction l with
  | nil => exact Or.inl rfl
  | cons c t ih =>
    by_cases h1 : '.' ∈ t
    · rcases ih with ihl | ihr
      · left
        simp [splitExtChars, h1, ihl]
      · right
        simp [splitExtChars, h1, ihr]
    · by_cases h2 : c = '.'
      · right
        simp [splitExtChars, h1, h2]
      · left
        simp [splitExtChars, h1, h2]

/-- The default output path of a stage never equals the input path: the
appended suffix starts with an underscore while a real extension starts with
a dot. -/
theorem defaultPath_ne {suffix : String}
    (hhead : suffix.data.head? = some '_') (p : String) :
    defaultPath suffix p ≠ p := by
  intro hcon
  have hdata : ((splitExtChars p.data).1 ++ suffix.data) = p.data :=
    congrArg String.data hcon
  have hsplit := splitExtChars_append p.data
  have hext : suffix.data = (splitExtChars p.data).2 :=
    List.append_cancel_left (show (splitExtChars p.data).1 ++ suffix.data =
      (splitExtChars p.data).1 ++ (splitExtChars p.data).2 by
        rw [hdata, hsplit])
  rcases splitExtChars_ext_head p.data with hnil | hdot
  · rw [hnil] at hext
    rw [hext] at hhead
    simp at hhead
  · rw [← hext] at hdot
    rw [hhead] at hdot
    simp at hdot

theorem fsWrite_ne (fs : Fs) (p : String) (d : FileData) {q : String}
    (h : q ≠ p) : fsWrite fs p d q = fs q := by
  simp [fsWrite, if_neg h]

theorem generate_pixel_mask_fs_other (ncols nrows : Nat) (threshold : ℚ)
    (s csize : Nat) (fs : Fs) (inPath : String) (outPath : Option String)
    {q : String}
    (hq : q ≠ outPath.getD (defaultPath "_noisy_pixel_mask.h5" inPath)) :
    (generate_pixel_mask_fs ncols nrows threshold s csize fs inPath
      outPath).1 q = fs q := by
  simp only [generate_pixel_mask_fs]
  split
  · split
    · rfl
    · exact fsWrite_ne fs _ _ hq
  · rfl

theorem remove_noisy_pixels_fs_other (ncols nrows : Nat) (threshold : ℚ)
    (s csize : Nat) (fs : Fs) (inPath : String) (outPath : Option String)
    {q : String}
    (hq1 : q ≠ outPath.getD (defaultPath "_noisy_pixels.h5" inPath))
    (hq2 : q ≠ defaultPath "_disabled_pixel_mask.h5" inPath) :
    (remove_noisy_pixels_fs ncols nrows threshold s csize fs inPath
      outPath).1 q = fs q := by
  simp only [remove_noisy_pixels_fs]
  split
  · split
    · rfl
    · exact (fsWrite_ne _ _ _ hq1).trans (fsWrite_ne _ _ _ hq2)
  · rfl

theorem cluster_hits_fs_other (p : ClusterParams) (csize : Nat) (fs : Fs)
    (inPath : String) (outPath : Option String) {q : String}
    (hq : q ≠ outPath.getD (defaultPath "_cluster.h5" inPath)) :
    (cluster_hits_fs p csize fs inPath outPath).1 q = fs q := by
  simp only [cluster_hits_fs]
  split
  · exact fsWrite_ne fs _ _ hq
  · rfl

/-- The hit file of the counterexample file system. -/
def fs0 : Fs :=
  fun q => if q = "in.h5" then some (FileData.hitsFile [⟨0, 1, 1, 7, 0⟩])
  else none

/-- Claim C8, counterexample: nothing stops a caller from passing the input
path as the output path; `generate_pixel_mask` then reads the hit table and
rewrites the same file with the mask file, so the input file's contents
differ before and after the call. -/
theorem c8_counterexample :
    (generate_pixel_mask_fs 1 1 10 3 1 fs0 "in.h5" (some "in.h5")).1
      "in.h5" ≠ fs0 "in.h5" := by decide

/-- Claim C8 (amended): whenever the chosen output path differs from the
input path — automatic under the default naming, whose suffix starts with an
underscore while any real extension starts with a dot — none of the three
stages modifies its input hit file: its contents at `inPath` are unchanged
after the run, all writes landing on the stage's output files. -/
theorem c8_input_preserved (ncols nrows : Nat) (threshold : ℚ)
    (s csize : Nat) (p : ClusterParams) (fs : Fs) (inPath : String)
    (outPath : Option String) (h : outPath ≠ some inPath) :
    (generate_pixel_mask_fs ncols nrows threshold s csize fs inPath
        outPath).1 inPath = fs inPath ∧
    (remove_noisy_pixels_fs ncols nrows threshold s csize fs inPath
        outPath).1 inPath = fs inPath ∧
    (cluster_hits_fs p csize fs inPath outPath).1 inPath = fs inPath := by
  have hout : ∀ sfx : String, sfx.data.head? = some '_' →
      inPath ≠ outPath.getD (defaultPath sfx inPath) := by
    intro sfx hs
    cases outPath with
    | none =>
      intro hcon
      exact defaultPath_ne hs inPath hcon.symm
    | some q' =>
      intro hcon
      rw [Option.getD_some] at hcon
      exact h (congrArg some hcon.symm)
  refine ⟨?_, ?_, ?_⟩
  · exact generate_pixel_mask_fs_other ncols nrows threshold s csize fs
      inPath outPath (hout "_noisy_pixel_mask.h5" rfl)
  · refine remove_noisy_pixels_fs_other ncols nrows threshold s csize fs
      inPath outPath (hout "_noisy_pixels.h5" rfl) ?_
    intro hcon
    exact @defaultPath_ne "_disabled_pixel_mask.h5" rfl inPath hcon.symm
  · exact cluster_hits_fs_other p csize fs inPath outPath
      (hout "_cluster.h5" rfl)

/-- Witness for C8: running the stages on the counterexample file system
with the default output paths leaves the input file untouched. -/
theorem c8_input_preserved_witness :
    (none ≠ some "in.h5") ∧
    ((generate_pixel_mask_fs 1 1 10 3 1 fs0 "in.h5" none).1
        "in.h5" = fs0 "in.h5" ∧
      (remove_noisy_pixels_fs 1 1 10 3 1 fs0 "in.h5" none).1
        "in.h5" = fs0 "in.h5" ∧
      (cluster_hits_fs defaultParams 1 fs0 "in.h5" none).1
        "in.h5" = fs0 "in.h5") :=
  ⟨by simp, c8_input_preserved 1 1 10 3 1 defaultParams fs0 "in.h5" none
    (by simp)⟩

end Testbeam
